import Mathlib

/-!
# Verification of the `cfqueue` in-memory job repository

Shallow embedding of `src/repository/job_repository.rs`
(`InMemoryJobRepository`).  The Rust repository owns two structures:

* `jobs : HashMap<usize, Job>` — the index from id to the authoritative
  job record, modelled as an association list with HashMap insert
  semantics (replace the existing key, otherwise append);
* `queue : VecDeque<Job>` — the pending queue of *cloned* job records,
  modelled as a list whose head is the front of the deque.

Every operation takes the whole repository state and returns its result
together with the successor state, making the mutation under the locks
explicit.  Since the Rust methods acquire both locks before any
externally visible effect, a sequential small-step model is faithful to
any linearisation of the concurrent executions.
-/

set_option autoImplicit false

namespace CfQueue

/-- `JobType` from `src/repository/mod.rs`. -/
inductive JobType where
  | TimeCritical
  | NotTimeCritical
deriving DecidableEq, Repr

/-- `JobStatus` from `src/repository/mod.rs`. -/
inductive JobStatus where
  | Queued
  | InProgress
  | Concluded
  | Cancelled
deriving DecidableEq, Repr

/-- `Job` from `src/repository/mod.rs`. -/
structure Job where
  id : Nat
  job_type : JobType
  status : JobStatus
deriving DecidableEq, Repr

/-- `JobRepositoryError` from `src/repository/mod.rs`. -/
inductive JobRepositoryError where
  | NotFound (id : Nat)
  | Empty
  | InvalidStatus (id : Nat)
  | Unknown
deriving DecidableEq, Repr

/-- The state of an `InMemoryJobRepository`: the id index (`jobs`) and the
pending queue (`queue`). -/
structure RepoState where
  jobs : List (Nat × Job)
  queue : List Job
deriving DecidableEq, Repr

/-- `InMemoryJobRepository::new()` / `Default::default()`. -/
def RepoState.empty : RepoState := ⟨[], []⟩

/-- `HashMap::get`: the record stored under key `k`, if any. -/
def hmGet (m : List (Nat × Job)) (k : Nat) : Option Job :=
  match m with
  | [] => none
  | p :: rest => if p.1 = k then some p.2 else hmGet rest k

/-- `HashMap::insert`: replace the record under `k` if the key is present,
otherwise add a new entry. -/
def hmInsert (m : List (Nat × Job)) (k : Nat) (v : Job) : List (Nat × Job) :=
  match m with
  | [] => [(k, v)]
  | p :: rest => if p.1 = k then (k, v) :: rest else p :: hmInsert rest k v

/-- `HashMap::get_mut` followed by an in-place update of the record under
`k` (keys and all other entries untouched). -/
def hmModify (m : List (Nat × Job)) (k : Nat) (f : Job → Job) : List (Nat × Job) :=
  match m with
  | [] => []
  | p :: rest => if p.1 = k then (p.1, f p.2) :: rest else p :: hmModify rest k f

/-- `HashMap::len`: on states built by `hmInsert` (unique keys) the list
length is the number of keys. -/
def hmLen (m : List (Nat × Job)) : Nat := m.length

/-- `InMemoryJobRepository::enqueue`: compute `id = jobs.len() + 1`, build
the job with status `Queued`, push a clone to the back of the queue and
insert a clone into the index.  The Rust method always returns `Ok(job)`. -/
def enqueue (s : RepoState) (job_type : JobType) : Job × RepoState :=
  let id := hmLen s.jobs + 1
  let job : Job := ⟨id, job_type, JobStatus.Queued⟩
  (job, ⟨hmInsert s.jobs id job, s.queue ++ [job]⟩)

/-- `InMemoryJobRepository::dequeue`: `queue.pop_back()` (the queue lock is
released right after the pop, so the pop persists even on the error
paths), then look the popped id up in the index; if the indexed record is
`Queued` it becomes `InProgress` and its clone is returned, otherwise the
call fails with `Unknown`.  An empty queue fails with `Empty`. -/
def dequeue (s : RepoState) : Except JobRepositoryError Job × RepoState :=
  match s.queue.getLast? with
  | none => (Except.error JobRepositoryError.Empty, s)
  | some queued_job =>
    let q' := s.queue.dropLast
    match hmGet s.jobs queued_job.id with
    | some job =>
      if job.status = JobStatus.Queued then
        (Except.ok { job with status := JobStatus.InProgress },
         ⟨hmModify s.jobs queued_job.id (fun j => { j with status := JobStatus.InProgress }), q'⟩)
      else
        (Except.error JobRepositoryError.Unknown, ⟨s.jobs, q'⟩)
    | none => (Except.error JobRepositoryError.Unknown, ⟨s.jobs, q'⟩)

/-- `InMemoryJobRepository::conclude`: `InProgress → Concluded`, else
`InvalidStatus`; unknown id fails with `NotFound`. -/
def conclude (s : RepoState) (id : Nat) : Except JobRepositoryError Job × RepoState :=
  match hmGet s.jobs id with
  | none => (Except.error (JobRepositoryError.NotFound id), s)
  | some job =>
    if job.status = JobStatus.InProgress then
      (Except.ok { job with status := JobStatus.Concluded },
       ⟨hmModify s.jobs id (fun j => { j with status := JobStatus.Concluded }), s.queue⟩)
    else
      (Except.error (JobRepositoryError.InvalidStatus id), s)

/-- `InMemoryJobRepository::find`: a snapshot of the record, no mutation. -/
def find (s : RepoState) (id : Nat) : Except JobRepositoryError Job × RepoState :=
  match hmGet s.jobs id with
  | some job => (Except.ok job, s)
  | none => (Except.error (JobRepositoryError.NotFound id), s)

/-- The defensive sweep at the start of `cancel`: collect the indices of
the queue entries whose *stored* status is `Cancelled` — but `enumerate()`
runs *after* `filter()`, so the collected indices are `0, …, k-1` where
`k` is the number of matching entries — then call `VecDeque::remove` on
each (`List.eraseIdx` is a no-op out of range, like `remove`). -/
def sweep (q : List Job) : List Job :=
  let ids := List.range (q.filter (fun job => job.status = JobStatus.Cancelled)).length
  ids.foldl (fun acc idx => acc.eraseIdx idx) q

/-- `InMemoryJobRepository::cancel`: run the defensive `sweep` on the
queue, then transition the indexed record from `Queued`/`InProgress` to
`Cancelled`; other statuses fail with `InvalidStatus`, unknown ids with
`NotFound`.  Note the record of `id` itself is never removed from the
pending queue. -/
def cancel (s : RepoState) (id : Nat) : Except JobRepositoryError Job × RepoState :=
  let q' := sweep s.queue
  match hmGet s.jobs id with
  | none => (Except.error (JobRepositoryError.NotFound id), ⟨s.jobs, q'⟩)
  | some job =>
    match job.status with
    | JobStatus.Queued =>
      (Except.ok { job with status := JobStatus.Cancelled },
       ⟨hmModify s.jobs id (fun j => { j with status := JobStatus.Cancelled }), q'⟩)
    | JobStatus.InProgress =>
      (Except.ok { job with status := JobStatus.Cancelled },
       ⟨hmModify s.jobs id (fun j => { j with status := JobStatus.Cancelled }), q'⟩)
    | _ => (Except.error (JobRepositoryError.InvalidStatus id), ⟨s.jobs, q'⟩)

/-- One step of the fold in `InMemoryJobRepository::stats`: bump the
counter matching the record's status. -/
def statsStep (acc : Nat × Nat × Nat × Nat) (p : Nat × Job) :
    Nat × Nat × Nat × Nat :=
  match p.2.status with
  | JobStatus.Queued => (acc.1 + 1, acc.2.1, acc.2.2.1, acc.2.2.2)
  | JobStatus.InProgress => (acc.1, acc.2.1 + 1, acc.2.2.1, acc.2.2.2)
  | JobStatus.Concluded => (acc.1, acc.2.1, acc.2.2.1 + 1, acc.2.2.2)
  | JobStatus.Cancelled => (acc.1, acc.2.1, acc.2.2.1, acc.2.2.2 + 1)

/-- `InMemoryJobRepository::stats`: fold over the index counting records
by status, returning `(queued, in_progress, concluded, cancelled)`. -/
def stats (s : RepoState) : Nat × Nat × Nat × Nat :=
  s.jobs.foldl statsStep (0, 0, 0, 0)

/-- One repository call (the argument of `find` does not matter for the
state, but is kept so a trace lists the exact calls made). -/
inductive Op where
  | enq (t : JobType)
  | deq
  | concl (id : Nat)
  | canc (id : Nat)
  | lookup (id : Nat)
deriving DecidableEq, Repr

/-- The state effect of one repository call. -/
def applyOp (s : RepoState) : Op → RepoState
  | Op.enq t => (enqueue s t).2
  | Op.deq => (dequeue s).2
  | Op.concl id => (conclude s id).2
  | Op.canc id => (cancel s id).2
  | Op.lookup id => (find s id).2

/-- Run a trace of repository calls from the empty repository. -/
def runOps (ops : List Op) : RepoState :=
  ops.foldl applyOp RepoState.empty

/-- A state is reachable when some trace of calls from the empty
repository produces it. -/
def Reachable (s : RepoState) : Prop :=
  ∃ ops : List Op, runOps ops = s

/-- Number of `enqueue` calls in a trace. -/
def countEnq (ops : List Op) : Nat :=
  ops.countP (fun op => match op with | Op.enq _ => true | _ => false)

/-! ## Basic facts about the HashMap model -/

theorem hmGet_hmInsert_self (m : List (Nat × Job)) (k : Nat) (v : Job) :
    hmGet (hmInsert m k v) k = some v := by
  induction m with
  | nil => simp [hmInsert, hmGet]
  | cons p rest ih =>
    by_cases h : p.1 = k
    · simp [hmInsert, hmGet, h]
    · simp [hmInsert, hmGet, h, ih]

theorem hmInsert_of_not_mem (m : List (Nat × Job)) (k : Nat) (v : Job)
    (h : k ∉ m.map Prod.fst) : hmInsert m k v = m ++ [(k, v)] := by
  induction m with
  | nil => simp [hmInsert]
  | cons p rest ih =>
    simp only [List.map_cons, List.mem_cons, not_or] at h
    simp [hmInsert, Ne.symm h.1, ih h.2]

theorem hmModify_map_fst (m : List (Nat × Job)) (k : Nat) (f : Job → Job) :
    (hmModify m k f).map Prod.fst = m.map Prod.fst := by
  induction m with
  | nil => simp [hmModify]
  | cons p rest ih =>
    by_cases h : p.1 = k
    · simp [hmModify, h]
    · simp [hmModify, h, ih]

theorem hmModify_length (m : List (Nat × Job)) (k : Nat) (f : Job → Job) :
    (hmModify m k f).length = m.length := by
  have h := congrArg List.length (hmModify_map_fst m k f)
  simpa using h

theorem hmGet_hmModify_self (m : List (Nat × Job)) (k : Nat) (f : Job → Job) :
    hmGet (hmModify m k f) k = (hmGet m k).map f := by
  induction m with
  | nil => simp [hmModify, hmGet]
  | cons p rest ih =>
    by_cases h : p.1 = k
    · simp [hmModify, hmGet, h]
    · simp [hmModify, hmGet, h, ih]

theorem hmGet_hmModify_ne (m : List (Nat × Job)) (k k' : Nat) (f : Job → Job)
    (h : k' ≠ k) : hmGet (hmModify m k f) k' = hmGet m k' := by
  induction m with
  | nil => simp [hmModify, hmGet]
  | cons p rest ih =>
    by_cases hp : p.1 = k
    · subst hp
      simp [hmModify, hmGet, Ne.symm h, ih]
    · by_cases hp' : p.1 = k'
      · simp [hmModify, hmGet, hp, hp', h]
      · simp [hmModify, hmGet, hp, hp', ih]

/-! ## The defensive sweep on a queue of `Queued` entries -/

/-- When every stored queue entry has status `Queued`, the filter in the
defensive sweep selects nothing, so the sweep removes nothing. -/
theorem sweep_eq_self_of_queued (q : List Job)
    (h : ∀ j ∈ q, j.status = JobStatus.Queued) : sweep q = q := by
  have hf : q.filter (fun job => job.status = JobStatus.Cancelled) = [] := by
    refine List.filter_eq_nil_iff.mpr ?_
    intro j hj
    simp [h j hj]
  simp [sweep, hf]

/-! ## Invariants of reachable states -/

/-- Every record stored in the pending queue has status `Queued` (the
queue holds clones made at `enqueue` time that are never written again). -/
def QueueQueued (s : RepoState) : Prop :=
  ∀ j ∈ s.queue, j.status = JobStatus.Queued

/-- The keys of the index are exactly `1, …, jobs.len()` in insertion
order. -/
def KeysOk (s : RepoState) : Prop :=
  s.jobs.map Prod.fst = List.range' 1 s.jobs.length

theorem keysOk_empty : KeysOk RepoState.empty := by
  simp [KeysOk, RepoState.empty]

theorem queueQueued_empty : QueueQueued RepoState.empty := by
  intro j hj
  simp [RepoState.empty] at hj

theorem not_mem_keys_of_keysOk {s : RepoState} (h : KeysOk s) :
    hmLen s.jobs + 1 ∉ s.jobs.map Prod.fst := by
  intro hmem
  rw [h] at hmem
  rcases List.mem_range'.mp hmem with ⟨i, hi, heq⟩
  simp [hmLen] at heq
  omega

/-- Under `KeysOk`, `enqueue` appends a fresh entry to the index. -/
theorem enqueue_jobs_eq {s : RepoState} (h : KeysOk s) (t : JobType) :
    (enqueue s t).2.jobs =
      s.jobs ++ [(hmLen s.jobs + 1, ⟨hmLen s.jobs + 1, t, JobStatus.Queued⟩)] := by
  simp [enqueue, hmInsert_of_not_mem _ _ _ (not_mem_keys_of_keysOk h)]

/-! ## Shape lemmas: the successor state of each operation -/

theorem enqueue_queue_eq (s : RepoState) (t : JobType) :
    (enqueue s t).2.queue =
      s.queue ++ [⟨hmLen s.jobs + 1, t, JobStatus.Queued⟩] := rfl

theorem dequeue_queue_eq (s : RepoState) :
    (dequeue s).2.queue = s.queue.dropLast := by
  unfold dequeue
  split
  · rename_i hq
    rw [List.getLast?_eq_none_iff.mp hq]
    rfl
  · split
    · split
      · rfl
      · rfl
    · rfl

theorem dequeue_jobs_map_fst (s : RepoState) :
    (dequeue s).2.jobs.map Prod.fst = s.jobs.map Prod.fst := by
  unfold dequeue
  split
  · rfl
  · split
    · split
      · simp [hmModify_map_fst]
      · rfl
    · rfl

theorem conclude_queue_eq (s : RepoState) (id : Nat) :
    (conclude s id).2.queue = s.queue := by
  unfold conclude
  split
  · rfl
  · split
    · rfl
    · rfl

theorem conclude_jobs_map_fst (s : RepoState) (id : Nat) :
    (conclude s id).2.jobs.map Prod.fst = s.jobs.map Prod.fst := by
  unfold conclude
  split
  · rfl
  · split
    · simp [hmModify_map_fst]
    · rfl

theorem cancel_queue_eq (s : RepoState) (id : Nat) :
    (cancel s id).2.queue = sweep s.queue := by
  unfold cancel
  split
  · rfl
  · split
    · rfl
    · rfl
    · rfl

theorem cancel_jobs_map_fst (s : RepoState) (id : Nat) :
    (cancel s id).2.jobs.map Prod.fst = s.jobs.map Prod.fst := by
  unfold cancel
  split
  · rfl
  · split
    · simp [hmModify_map_fst]
    · simp [hmModify_map_fst]
    · rfl

theorem find_state_eq (s : RepoState) (id : Nat) : (find s id).2 = s := by
  unfold find
  split
  · rfl
  · rfl

/-! ## Preservation of the invariants -/

theorem keysOk_of_map_fst_eq {s s' : RepoState}
    (h : s'.jobs.map Prod.fst = s.jobs.map Prod.fst) (hk : KeysOk s) :
    KeysOk s' := by
  unfold KeysOk at hk ⊢
  have hl : s'.jobs.length = s.jobs.length := by
    have := congrArg List.length h
    simpa using this
  rw [h, hl, hk]

theorem keysOk_enqueue {s : RepoState} (h : KeysOk s) (t : JobType) :
    KeysOk (enqueue s t).2 := by
  have he := enqueue_jobs_eq h t
  unfold KeysOk at h ⊢
  rw [he]
  simp only [List.map_append, List.length_append, List.map_cons, List.map_nil,
    List.length_cons, List.length_nil]
  rw [h]
  have hr := List.range'_1_concat 1 s.jobs.length
  rw [Nat.add_comm s.jobs.length (0 + 1)]
  simp only [Nat.zero_add]
  rw [Nat.add_comm 1 s.jobs.length, hr]
  simp [hmLen, Nat.add_comm]

theorem keysOk_applyOp {s : RepoState} (h : KeysOk s) (op : Op) :
    KeysOk (applyOp s op) := by
  cases op with
  | enq t => exact keysOk_enqueue h t
  | deq => exact keysOk_of_map_fst_eq (dequeue_jobs_map_fst s) h
  | concl id => exact keysOk_of_map_fst_eq (conclude_jobs_map_fst s id) h
  | canc id => exact keysOk_of_map_fst_eq (cancel_jobs_map_fst s id) h
  | lookup id =>
    show KeysOk (find s id).2
    rw [find_state_eq]
    exact h

theorem queueQueued_applyOp {s : RepoState} (h : QueueQueued s) (op : Op) :
    QueueQueued (applyOp s op) := by
  cases op with
  | enq t =>
    intro j hj
    rw [show (applyOp s (Op.enq t)).queue = (enqueue s t).2.queue from rfl,
      enqueue_queue_eq] at hj
    rcases List.mem_append.mp hj with hj | hj
    · exact h j hj
    · simp at hj
      rw [hj]
  | deq =>
    intro j hj
    rw [show (applyOp s Op.deq).queue = (dequeue s).2.queue from rfl,
      dequeue_queue_eq] at hj
    exact h j ((List.dropLast_sublist s.queue).subset hj)
  | concl id =>
    intro j hj
    rw [show (applyOp s (Op.concl id)).queue = (conclude s id).2.queue from rfl,
      conclude_queue_eq] at hj
    exact h j hj
  | canc id =>
    intro j hj
    rw [show (applyOp s (Op.canc id)).queue = (cancel s id).2.queue from rfl,
      cancel_queue_eq, sweep_eq_self_of_queued s.queue h] at hj
    exact h j hj
  | lookup id =>
    intro j hj
    rw [show (applyOp s (Op.lookup id)).queue = (find s id).2.queue from rfl,
      find_state_eq] at hj
    exact h j hj

theorem keysOk_foldl : ∀ (ops : List Op) (s : RepoState), KeysOk s →
    KeysOk (ops.foldl applyOp s)
  | [], _, h => h
  | op :: rest, s, h => keysOk_foldl rest (applyOp s op) (keysOk_applyOp h op)

theorem queueQueued_foldl : ∀ (ops : List Op) (s : RepoState), QueueQueued s →
    QueueQueued (ops.foldl applyOp s)
  | [], _, h => h
  | op :: rest, s, h =>
    queueQueued_foldl rest (applyOp s op) (queueQueued_applyOp h op)

theorem keysOk_reachable {s : RepoState} (h : Reachable s) : KeysOk s := by
  rcases h with ⟨ops, rfl⟩
  exact keysOk_foldl ops RepoState.empty keysOk_empty

theorem queueQueued_reachable {s : RepoState} (h : Reachable s) :
    QueueQueued s := by
  rcases h with ⟨ops, rfl⟩
  exact queueQueued_foldl ops RepoState.empty queueQueued_empty

/-! ## Counting: stats totals and the number of enqueues -/

theorem statsStep_sum (a : Nat × Nat × Nat × Nat) (p : Nat × Job) :
    (statsStep a p).1 + (statsStep a p).2.1 + (statsStep a p).2.2.1 +
      (statsStep a p).2.2.2 =
    a.1 + a.2.1 + a.2.2.1 + a.2.2.2 + 1 := by
  unfold statsStep
  cases p.2.status <;> simp <;> omega

theorem stats_foldl_sum : ∀ (l : List (Nat × Job)) (a : Nat × Nat × Nat × Nat),
    (l.foldl statsStep a).1 + (l.foldl statsStep a).2.1 +
      (l.foldl statsStep a).2.2.1 + (l.foldl statsStep a).2.2.2 =
    a.1 + a.2.1 + a.2.2.1 + a.2.2.2 + l.length
  | [], a => by simp
  | p :: rest, a => by
    simp only [List.foldl_cons, List.length_cons]
    rw [stats_foldl_sum rest (statsStep a p), statsStep_sum]
    omega

theorem stats_sum_eq_length (s : RepoState) :
    (stats s).1 + (stats s).2.1 + (stats s).2.2.1 + (stats s).2.2.2 =
      s.jobs.length := by
  unfold stats
  rw [stats_foldl_sum]
  simp

theorem jobs_length_of_map_fst_eq {m m' : List (Nat × Job)}
    (h : m'.map Prod.fst = m.map Prod.fst) : m'.length = m.length := by
  have hc := congrArg List.length h
  simpa using hc

theorem jobs_length_foldl (ops : List Op) : ∀ s : RepoState, KeysOk s →
    (ops.foldl applyOp s).jobs.length = s.jobs.length + countEnq ops := by
  induction ops with
  | nil =>
    intro s _
    simp [countEnq]
  | cons op rest ih =>
    intro s h
    rw [List.foldl_cons, ih _ (keysOk_applyOp h op)]
    cases op with
    | enq t =>
      have hstep : (applyOp s (Op.enq t)).jobs.length = s.jobs.length + 1 := by
        show (enqueue s t).2.jobs.length = _
        rw [enqueue_jobs_eq h t]
        simp
      have hc : countEnq (Op.enq t :: rest) = countEnq rest + 1 := by
        simp [countEnq, List.countP_cons]
      rw [hstep, hc]
      omega
    | deq =>
      have hstep : (applyOp s Op.deq).jobs.length = s.jobs.length :=
        jobs_length_of_map_fst_eq (dequeue_jobs_map_fst s)
      have hc : countEnq (Op.deq :: rest) = countEnq rest := by
        simp [countEnq, List.countP_cons]
      rw [hstep, hc]
    | concl id =>
      have hstep : (applyOp s (Op.concl id)).jobs.length = s.jobs.length :=
        jobs_length_of_map_fst_eq (conclude_jobs_map_fst s id)
      have hc : countEnq (Op.concl id :: rest) = countEnq rest := by
        simp [countEnq, List.countP_cons]
      rw [hstep, hc]
    | canc id =>
      have hstep : (applyOp s (Op.canc id)).jobs.length = s.jobs.length :=
        jobs_length_of_map_fst_eq (cancel_jobs_map_fst s id)
      have hc : countEnq (Op.canc id :: rest) = countEnq rest := by
        simp [countEnq, List.countP_cons]
      rw [hstep, hc]
    | lookup id =>
      have hstep : (applyOp s (Op.lookup id)).jobs.length = s.jobs.length := by
        show (find s id).2.jobs.length = _
        rw [find_state_eq]
      have hc : countEnq (Op.lookup id :: rest) = countEnq rest := by
        simp [countEnq, List.countP_cons]
      rw [hstep, hc]

/-! ## Sequences of enqueues -/

/-- Run one `enqueue` per element of `ts`, collecting the returned jobs in
call order. -/
def enqueueAll (s : RepoState) : List JobType → RepoState × List Job
  | [] => (s, [])
  | t :: ts =>
    let r := enqueue s t
    let rest := enqueueAll r.2 ts
    (rest.1, r.1 :: rest.2)

theorem enqueueAll_spec : ∀ (ts : List JobType) (s : RepoState), KeysOk s →
    (enqueueAll s ts).2.map Job.id =
      List.range' (s.jobs.length + 1) ts.length ∧
    ∀ j ∈ (enqueueAll s ts).2, j.status = JobStatus.Queued
  | [], s, _ => by simp [enqueueAll]
  | t :: ts, s, h => by
    have hk' : KeysOk (enqueue s t).2 := keysOk_enqueue h t
    have hlen : (enqueue s t).2.jobs.length = s.jobs.length + 1 := by
      rw [enqueue_jobs_eq h t]
      simp
    have ih := enqueueAll_spec ts (enqueue s t).2 hk'
    constructor
    · simp only [enqueueAll, List.map_cons, List.length_cons]
      rw [ih.1, hlen]
      have hid : (enqueue s t).1.id = s.jobs.length + 1 := rfl
      rw [hid, List.range'_succ]
    · intro j hj
      simp only [enqueueAll, List.mem_cons] at hj
      rcases hj with hj | hj
      · rw [hj]
        rfl
      · exact ih.2 j hj

/-! ## Behaviour of `conclude` and `dequeue` on specific shapes -/

theorem conclude_eq_of_inProgress {s : RepoState} {id : Nat} {j : Job}
    (hg : hmGet s.jobs id = some j) (hs : j.status = JobStatus.InProgress) :
    conclude s id =
      (Except.ok { j with status := JobStatus.Concluded },
       ⟨hmModify s.jobs id (fun x => { x with status := JobStatus.Concluded }),
        s.queue⟩) := by
  unfold conclude
  rw [hg]
  simp [hs]

theorem conclude_ok_inv {s : RepoState} {id : Nat} {j' : Job}
    (h : (conclude s id).1 = Except.ok j') :
    ∃ j, hmGet s.jobs id = some j ∧ j.status = JobStatus.InProgress ∧
      j' = { j with status := JobStatus.Concluded } := by
  unfold conclude at h
  split at h
  · simp at h
  · rename_i j hg
    split at h
    · rename_i hs
      exact ⟨j, hg, hs, by simpa using h.symm⟩
    · simp at h

theorem dequeue_of_last_queued (m : List (Nat × Job)) (q : List Job) (j : Job)
    (hget : hmGet m j.id = some j) (hst : j.status = JobStatus.Queued) :
    dequeue ⟨m, q ++ [j]⟩ =
      (Except.ok { j with status := JobStatus.InProgress },
       ⟨hmModify m j.id (fun x => { x with status := JobStatus.InProgress }),
        q⟩) := by
  unfold dequeue
  rw [List.getLast?_concat]
  simp only []
  rw [hget]
  simp [hst, List.dropLast_concat]

/-! ## The claims -/

/-- C1: the claim states that when `cancel(id)` succeeds, no entry for
that id remains in the pending queue.  The code violates it: from the
empty repository, after one `enqueue`, `cancel 1` succeeds and returns
the job as `Cancelled`, yet the pending queue still holds the entry for
id 1 (with its stale cloned status `Queued`).  `cancel` never removes the
cancelled id's entry, and its defensive sweep only matches clones whose
stored status is `Cancelled`, which never occurs. -/
theorem cancel_leaves_entry_in_queue :
    (cancel (runOps [Op.enq JobType.TimeCritical]) 1).1 =
      Except.ok ⟨1, JobType.TimeCritical, JobStatus.Cancelled⟩ ∧
    (cancel (runOps [Op.enq JobType.TimeCritical]) 1).2.queue =
      [⟨1, JobType.TimeCritical, JobStatus.Queued⟩] :=
  ⟨rfl, rfl⟩

/-- C2: the claim states that in every reachable state, every id in the
pending queue has status `Queued` in the index.  The reachable state
after `enqueue; cancel 1` violates it: id 1 is still in the pending
queue while the index records it as `Cancelled`. -/
theorem queue_holds_cancelled_id :
    (runOps [Op.enq JobType.TimeCritical, Op.canc 1]).queue.map Job.id = [1] ∧
    hmGet (runOps [Op.enq JobType.TimeCritical, Op.canc 1]).jobs 1 =
      some ⟨1, JobType.TimeCritical, JobStatus.Cancelled⟩ :=
  ⟨rfl, rfl⟩

/-- C3: the claim states that in every reachable state with zero `Queued`
jobs, `dequeue` fails with `Empty`.  In the reachable state after
`enqueue; cancel 1` no job has status `Queued` (the stats queued count is
0), yet `dequeue` pops the stale queue entry of the cancelled job and
fails with `Unknown`, not `Empty`. -/
theorem dequeue_unknown_with_zero_queued :
    (stats (runOps [Op.enq JobType.TimeCritical, Op.canc 1])).1 = 0 ∧
    (dequeue (runOps [Op.enq JobType.TimeCritical, Op.canc 1])).1 =
      Except.error JobRepositoryError.Unknown :=
  ⟨rfl, rfl⟩

/-- C4: the claim states that every failing operation leaves the state
unchanged.  In the reachable state after `enqueue; cancel 1`, `dequeue`
fails with `Unknown` but still removes the popped stale entry from the
pending queue: the queue goes from `[job 1]` to `[]`. -/
theorem dequeue_error_mutates_queue :
    (dequeue (runOps [Op.enq JobType.TimeCritical, Op.canc 1])).1 =
      Except.error JobRepositoryError.Unknown ∧
    (runOps [Op.enq JobType.TimeCritical, Op.canc 1]).queue =
      [⟨1, JobType.TimeCritical, JobStatus.Queued⟩] ∧
    (dequeue (runOps [Op.enq JobType.TimeCritical, Op.canc 1])).2.queue = [] :=
  ⟨rfl, rfl, rfl⟩

/-- C5: dequeue is last-in-first-out.  From any repository state, after
enqueueing job A and then job B, `dequeue` returns B (transitioned to
`InProgress`), removes exactly B's entry from the pending queue, and A's
entry is still pending. -/
theorem dequeue_lifo (s : RepoState) (tA tB : JobType) :
    (dequeue (enqueue (enqueue s tA).2 tB).2).1 =
      Except.ok { (enqueue (enqueue s tA).2 tB).1 with
                    status := JobStatus.InProgress } ∧
    (dequeue (enqueue (enqueue s tA).2 tB).2).2.queue =
      (enqueue s tA).2.queue ∧
    (enqueue s tA).1 ∈ (dequeue (enqueue (enqueue s tA).2 tB).2).2.queue := by
  have hget : hmGet (enqueue (enqueue s tA).2 tB).2.jobs
      (enqueue (enqueue s tA).2 tB).1.id =
      some (enqueue (enqueue s tA).2 tB).1 :=
    hmGet_hmInsert_self _ _ _
  have hd' : dequeue (enqueue (enqueue s tA).2 tB).2 =
      (Except.ok { (enqueue (enqueue s tA).2 tB).1 with
                     status := JobStatus.InProgress },
       ⟨hmModify (enqueue (enqueue s tA).2 tB).2.jobs
          (enqueue (enqueue s tA).2 tB).1.id
          (fun x => { x with status := JobStatus.InProgress }),
        (enqueue s tA).2.queue⟩) :=
    dequeue_of_last_queued (enqueue (enqueue s tA).2 tB).2.jobs
      (enqueue s tA).2.queue (enqueue (enqueue s tA).2 tB).1 hget rfl
  refine ⟨?_, ?_, ?_⟩
  · rw [hd']
  · rw [hd']
  · rw [hd']
    show (enqueue s tA).1 ∈ (enqueue s tA).2.queue
    rw [enqueue_queue_eq]
    exact List.mem_append_right _ (List.mem_singleton.mpr rfl)

/-- C6: running any list of sequential enqueues from the empty repository
returns jobs whose ids are exactly `1, …, N` in order (no duplicates, no
gaps), every returned job having status `Queued`; in the code `enqueue`
always returns `Ok`, which the model reflects by returning the job
outright. -/
theorem enqueue_ids_one_to_n (ts : List JobType) :
    (enqueueAll RepoState.empty ts).2.map Job.id = List.range' 1 ts.length ∧
    ∀ j ∈ (enqueueAll RepoState.empty ts).2, j.status = JobStatus.Queued := by
  have h := enqueueAll_spec ts RepoState.empty keysOk_empty
  simpa [RepoState.empty] using h

/-- Witness for C6: two sequential enqueues return ids `[1, 2]`, and the
first returned job of a single enqueue has status `Queued`. -/
theorem enqueue_ids_one_to_n_witness :
    (enqueueAll RepoState.empty
        [JobType.TimeCritical, JobType.NotTimeCritical]).2.map Job.id =
      List.range' 1 2 ∧
    (⟨1, JobType.TimeCritical, JobStatus.Queued⟩ : Job).status =
      JobStatus.Queued :=
  ⟨(enqueue_ids_one_to_n [JobType.TimeCritical, JobType.NotTimeCritical]).1,
   (enqueue_ids_one_to_n [JobType.TimeCritical]).2
     ⟨1, JobType.TimeCritical, JobStatus.Queued⟩ (by decide)⟩

/-- C7: for every state and id, `conclude(id)` fails with `NotFound` iff
the id is absent from the index, fails with `InvalidStatus` iff the job
exists with a status other than `InProgress`, and on an `InProgress` job
succeeds, returning the record with status `Concluded` and storing it in
the index. -/
theorem conclude_error_taxonomy (s : RepoState) (id : Nat) :
    ((conclude s id).1 = Except.error (JobRepositoryError.NotFound id) ↔
      hmGet s.jobs id = none) ∧
    ((conclude s id).1 = Except.error (JobRepositoryError.InvalidStatus id) ↔
      ∃ j, hmGet s.jobs id = some j ∧ j.status ≠ JobStatus.InProgress) ∧
    (∀ j, hmGet s.jobs id = some j → j.status = JobStatus.InProgress →
      (conclude s id).1 = Except.ok { j with status := JobStatus.Concluded } ∧
      hmGet (conclude s id).2.jobs id =
        some { j with status := JobStatus.Concluded }) := by
  refine ⟨?_, ?_, ?_⟩
  · constructor
    · intro h
      unfold conclude at h
      split at h
      · rename_i hg
        exact hg
      · rename_i j hg
        split at h
        · simp at h
        · simp at h
    · intro hg
      simp [conclude, hg]
  · constructor
    · intro h
      unfold conclude at h
      split at h
      · simp at h
      · rename_i j hg
        split at h
        · simp at h
        · rename_i hs
          exact ⟨j, hg, hs⟩
    · rintro ⟨j, hg, hs⟩
      simp [conclude, hg, hs]
  · intro j hg hs
    have he := conclude_eq_of_inProgress hg hs
    constructor
    · rw [he]
    · rw [he]
      simp [hmGet_hmModify_self, hg]

/-- Witness for C7: in the concrete repository reached by
`enqueue; dequeue` (job 1 is `InProgress`), `conclude 1` succeeds and
returns job 1 as `Concluded`. -/
theorem conclude_error_taxonomy_witness :
    (conclude (runOps [Op.enq JobType.TimeCritical, Op.deq]) 1).1 =
      Except.ok ⟨1, JobType.TimeCritical, JobStatus.Concluded⟩ :=
  ((conclude_error_taxonomy (runOps [Op.enq JobType.TimeCritical, Op.deq]) 1).2.2
    ⟨1, JobType.TimeCritical, JobStatus.InProgress⟩ rfl rfl).1

/-- C8: after any trace of operations from the empty repository, the four
counters of `stats` sum to the number of `enqueue` calls in the trace. -/
theorem stats_sum_eq_enqueues (ops : List Op) :
    (stats (runOps ops)).1 + (stats (runOps ops)).2.1 +
      (stats (runOps ops)).2.2.1 + (stats (runOps ops)).2.2.2 =
    countEnq ops := by
  rw [stats_sum_eq_length]
  show (ops.foldl applyOp RepoState.empty).jobs.length = countEnq ops
  rw [jobs_length_foldl ops RepoState.empty keysOk_empty]
  show 0 + countEnq ops = countEnq ops
  omega

/-- C9: in every reachable state every entry stored in the pending queue
has status `Queued`, so the defensive sweep at the start of `cancel`
removes nothing, and `cancel` (whose only queue effect is that sweep)
leaves the pending queue unchanged for every id. -/
theorem queue_clones_queued_sweep_noop {s : RepoState} (h : Reachable s) :
    (∀ j ∈ s.queue, j.status = JobStatus.Queued) ∧
    sweep s.queue = s.queue ∧
    ∀ id, (cancel s id).2.queue = s.queue := by
  have hq := queueQueued_reachable h
  refine ⟨hq, sweep_eq_self_of_queued s.queue hq, ?_⟩
  intro id
  rw [cancel_queue_eq, sweep_eq_self_of_queued s.queue hq]

/-- Witness for C9: in the reachable repository with one enqueued job the
sweep leaves the pending queue unchanged. -/
theorem queue_clones_queued_sweep_noop_witness :
    sweep (runOps [Op.enq JobType.TimeCritical]).queue =
      (runOps [Op.enq JobType.TimeCritical]).queue :=
  (queue_clones_queued_sweep_noop ⟨[Op.enq JobType.TimeCritical], rfl⟩).2.1

/-- C10: when `conclude(id)` succeeds it only rewrites the status of the
record stored under `id` to `Concluded` (keeping its id and type), leaves
every other key's record unchanged, keeps the index keys, and does not
touch the pending queue. -/
theorem conclude_frame (s : RepoState) (id : Nat) (j' : Job)
    (h : (conclude s id).1 = Except.ok j') :
    (conclude s id).2.queue = s.queue ∧
    (conclude s id).2.jobs.map Prod.fst = s.jobs.map Prod.fst ∧
    (∀ k, k ≠ id → hmGet (conclude s id).2.jobs k = hmGet s.jobs k) ∧
    ∃ j, hmGet s.jobs id = some j ∧ j.status = JobStatus.InProgress ∧
      j' = ⟨j.id, j.job_type, JobStatus.Concluded⟩ ∧
      hmGet (conclude s id).2.jobs id = some j' := by
  obtain ⟨j, hg, hs, hj'⟩ := conclude_ok_inv h
  have he := conclude_eq_of_inProgress hg hs
  refine ⟨conclude_queue_eq s id, conclude_jobs_map_fst s id, ?_, j, hg, hs,
    hj', ?_⟩
  · intro k hk
    rw [he]
    exact hmGet_hmModify_ne s.jobs id k _ hk
  · rw [he, hj']
    simp [hmGet_hmModify_self, hg]

/-- Witness for C10: in the concrete repository reached by
`enqueue; dequeue`, the successful `conclude 1` leaves the pending queue
as it was. -/
theorem conclude_frame_witness :
    (conclude (runOps [Op.enq JobType.TimeCritical, Op.deq]) 1).2.queue =
      (runOps [Op.enq JobType.TimeCritical, Op.deq]).queue :=
  (conclude_frame (runOps [Op.enq JobType.TimeCritical, Op.deq]) 1
    ⟨1, JobType.TimeCritical, JobStatus.Concluded⟩ rfl).1

end CfQueue
